import Mathlib

/-
Verification development for libhyx: a shallow embedding of the repository's
type-level list library (src/type_sequence.h), legacy logger prefix stack and
enable/disable switch (src/logger.cpp), and the bracket-scanning engine with
its namespace/member grammar (src/header_string.h).

C++ types are modelled as elements of an arbitrary type with decidable
equality (std::is_same is decidable equality on types); type_sequence<Ts...>
becomes a List.  Iterators into the scanned string_view become Nat positions
into a fixed List Char; std::ranges::next/advance with a bound become
clamped addition (min).  Reading through an iterator is modelled by getD
with the null character as default: the repository constructs its scanners
from null-terminated literals, so the one-past-the-end position holds the
terminator; positions are always clamped to at most the end bound.
-/

namespace hyx

-- ********************************************************************
-- type_sequence.h : contains, unique, split, cat
-- ********************************************************************

/-- hyx::meta::contains — std::disjunction of std::is_same<IType, Ts>...
over the elements of the sequence. -/
def contains {α : Type} [DecidableEq α] (x : α) : List α → Bool
  | [] => false
  | t :: ts => if x = t then true else contains x ts

/-- hyx::detail::_unique_impl — the Bool argument is the precomputed
`Contains` flag for the front of the remaining sequence.  The `false` case
keeps the front by PREPENDING it to the accumulator (type_sequence<U1, Ts...>
in the source) and the single-element base case APPENDS (type_sequence<Ts..., U>).
The `_, ts, []` fallbacks correspond to instantiations for which the C++
has no specialization; they are unreachable from `unique`. -/
def _unique_impl {α : Type} [DecidableEq α] : Bool → List α → List α → List α
  | false, ts, u1 :: u2 :: us => _unique_impl (contains u2 (u1 :: ts)) (u1 :: ts) (u2 :: us)
  | true, ts, _ :: u2 :: us => _unique_impl (contains u2 ts) ts (u2 :: us)
  | false, ts, [u] => ts ++ [u]
  | true, ts, [_] => ts
  | _, _, [] => []

/-- hyx::meta::unique — entry point: _unique_impl<false, type_sequence<>, input>. -/
def unique {α : Type} [DecidableEq α] (us : List α) : List α :=
  _unique_impl false [] us

/-- hyx::detail::_split_impl — moves `pos` elements from the second sequence
to the back of the first.  The `_+1, ts, []` fallback corresponds to an
instantiation with no C++ specialization (Pos exceeding the length is
ill-formed); it is unreachable for pos within bounds. -/
def _split_impl {α : Type} : Nat → List α → List α → List α × List α
  | 0, ts, us => (ts, us)
  | pos + 1, ts, u :: us => _split_impl pos (ts ++ [u]) us
  | _ + 1, ts, [] => (ts, [])

/-- hyx::meta::split — split before Pos: _split_impl<Pos, type_sequence<>, input>.
(The C++20 Pos == sizeof...(Ts) shortcut produces the same pair.) -/
def split {α : Type} (pos : Nat) (l : List α) : List α × List α :=
  _split_impl pos [] l

/-- hyx::meta::cat — concatenation of two sequences by pack expansion. -/
def cat {α : Type} (a b : List α) : List α := a ++ b

-- ********************************************************************
-- logger.cpp : enable/disable on the osyncstream sink
-- ********************************************************************

/-- std::ios_base::goodbit == 0. -/
def goodbit : Nat := 0

/-- std::ios_base::badbit (libstdc++ bit value; any fixed nonzero bit works). -/
def badbit : Nat := 1

/-- std::ios_base::failbit (libstdc++ bit value; any fixed nonzero bit works). -/
def failbit : Nat := 4

/-- The sink: its iostate bits and the lines successfully written so far. -/
structure sync_stream where
  rdstate : Nat
  written : List String
deriving DecidableEq

/-- std::basic_ios::setstate(state) is clear(rdstate() | state): it ORs the
given bits into the current state and never removes bits. -/
def setstate (st : sync_stream) (flags : Nat) : sync_stream :=
  { st with rdstate := st.rdstate ||| flags }

/-- A stream insertion writes nothing when fail() holds, i.e. when failbit or
badbit is set. -/
def stream_fail (st : sync_stream) : Bool :=
  st.rdstate &&& (failbit ||| badbit) != 0

/-- hyx::logger::disable — out_stream.setstate(std::ios::failbit). -/
def disable (st : sync_stream) : sync_stream := setstate st failbit

/-- hyx::logger::enable — out_stream.setstate(std::ios::goodbit). -/
def enable (st : sync_stream) : sync_stream := setstate st goodbit

/-- One logging call: the formatted line reaches the sink only when the
stream is not in a failed state. -/
def write_line (st : sync_stream) (msg : String) : sync_stream :=
  if stream_fail st then st else { st with written := st.written ++ [msg] }

/-- An interleaving of disable/enable with logging calls. -/
inductive log_op : Type
  | disable : log_op
  | enable : log_op
  | log : String → log_op
deriving DecidableEq

/-- Run a sequence of logger operations against the sink. -/
def run_ops (st : sync_stream) : List log_op → sync_stream
  | [] => st
  | log_op.disable :: ops => run_ops (disable st) ops
  | log_op.enable :: ops => run_ops (enable st) ops
  | log_op.log m :: ops => run_ops (write_line st m) ops

/-- The sink at program start: goodbit state, nothing written. -/
def init_stream : sync_stream := ⟨goodbit, []⟩

-- ********************************************************************
-- logger.cpp : push_prefix / pop_prefix on the shared prefix string
-- ********************************************************************

/-- hyx::logger::push_prefix — prefix += pre; prefix += ": ". -/
def push_prefix (p : List Char) (pre : List Char) : List Char :=
  p ++ pre ++ [':', ' ']

/-- std::string::find_last_of(":") — index of the last occurrence of the
colon, none when absent (npos). -/
def find_last_of (s : List Char) (c : Char) : Option Nat :=
  match s with
  | [] => none
  | a :: as =>
    match find_last_of as c with
    | some i => some (i + 1)
    | none => if a = c then some 0 else none

/-- hyx::logger::pop_prefix — when nonempty: two pop_backs (drop the trailing
": "), then find_last_of(":"); on a hit keep substr(0, idx + 2) (substr clamps
the count like List.take), otherwise clear. -/
def pop_prefix (p : List Char) : List Char :=
  if p = [] then p
  else
    let q := p.dropLast.dropLast
    match find_last_of q ':' with
    | some i => q.take (i + 2)
    | none => []

/-- The prefix string reached from empty by a sequence of push_prefix calls. -/
def foldPushes (ls : List (List Char)) : List Char :=
  List.foldl push_prefix [] ls

-- ********************************************************************
-- header_string.h : the bracket finder and the scan engine
-- ********************************************************************

/-- The null character: the terminator sitting one past the end of the
null-terminated buffers the repository scans. -/
def nulChar : Char := Char.ofNat 0

/-- Reading through an iterator at position i of the scanned span.  Positions
are always clamped to at most the length; position = length yields the
terminator of the backing buffer. -/
def deref (s : List Char) (i : Nat) : Char :=
  s.getD i nulChar

/-- hyx::find_next_valid_bracket over span positions, second component
recording every position the function dereferences.  e is the end bound;
std::ranges::next/advance with bound e become `min _ e`.  fuel makes the
loop structural; every call below supplies fuel at least e - start, which
the loop (advancing start by at least one per iteration) never exhausts. -/
def find_next_valid_bracket (s : List Char) (e : Nat) : Nat → Nat → Nat × List Nat
  | 0, _ => (e, [])
  | fuel + 1, start =>
    if start < e then
      if deref s start = '[' then
        let nxt := min (start + 1) e
        if deref s nxt ≠ '[' then (start, [start, nxt])
        else
          let r := find_next_valid_bracket s e fuel (min (nxt + 1) e)
          (r.1, start :: nxt :: r.2)
      else if deref s start = ']' then
        let nxt := min (start + 1) e
        if deref s nxt ≠ ']' then (start, [start, nxt])
        else
          let nxt2 := min (nxt + 1) e
          if deref s nxt2 = ']' then (start, [start, nxt, nxt2])
          else
            let r := find_next_valid_bracket s e fuel (min (nxt + 1) e)
            (r.1, start :: nxt :: nxt2 :: r.2)
      else
        let r := find_next_valid_bracket s e fuel (min (start + 1) e)
        (r.1, start :: r.2)
    else (e, [])

/-- hyx::detail::spec_id. -/
inductive spec_id : Type
  | lvl | sys | utc | tai | gps | file
  | line | column | file_name | function_name
deriving DecidableEq

/-- hyx::basic_scanner::AvailableSpecs — the grammar table: each namespace
label paired with its ordered member labels and their spec_ids. -/
def availableSpecs : List (List Char × List (List Char × spec_id)) :=
  [ ("::".data, [("lvl".data, spec_id.lvl)]),
    ("cl::".data,
      [("sys".data, spec_id.sys), ("utc".data, spec_id.utc),
       ("tai".data, spec_id.tai), ("gps".data, spec_id.gps),
       ("file".data, spec_id.file)]),
    ("sl::".data,
      [("line".data, spec_id.line), ("column".data, spec_id.column),
       ("file_name".data, spec_id.file_name),
       ("function_name".data, spec_id.function_name)]) ]

/-- The string_view {lo, hi} sliced out of the scanned span. -/
def subview (s : List Char) (lo hi : Nat) : List Char :=
  (s.drop lo).take (hi - lo)

/-- The format errors hyx::basic_scanner can throw. -/
inductive scan_error : Type
  | unmatched_right | unmatched_left
  | unknown_namespace | unknown_member | missing_semicolon
deriving DecidableEq

/-- hyx::basic_scanner::parse_member over the subview [lo, hi) of s: try the
member labels in order; on a prefix hit strip the label, require ';' via
fmt.front() (a read of the span character at the new begin — for an empty
remainder this is the character at hi, the closing bracket), then return the
spec_id with the new ctx begin (one past the ';') and subend (hi). -/
def parse_member (s : List Char) (hi : Nat) (lo : Nat) :
    List (List Char × spec_id) → Except scan_error (spec_id × Nat × Nat)
  | [] => Except.error scan_error.unknown_member
  | (lbl, id) :: rest =>
    if lbl.isPrefixOf (subview s lo hi) then
      let lo' := lo + lbl.length
      if deref s lo' = ';' then Except.ok (id, lo' + 1, hi)
      else Except.error scan_error.missing_semicolon
    else parse_member s hi lo rest

/-- hyx::basic_scanner::parse_namespace over the subview [lo, hi) of s: try
the namespace labels in order; on a prefix hit strip the label and parse the
members of that namespace. -/
def parse_namespace (s : List Char) (hi : Nat) (lo : Nat) :
    List (List Char × List (List Char × spec_id)) → Except scan_error (spec_id × Nat × Nat)
  | [] => Except.error scan_error.unknown_namespace
  | (ns, members) :: rest =>
    if ns.isPrefixOf (subview s lo hi) then parse_member s hi (lo + ns.length) members
    else parse_namespace s hi lo rest

/-- The two scan hooks: on_event(pos) and consume_spec(id) together with the
ctx slice [specStart, specEnd) holding the trailing spec text. -/
inductive scan_event : Type
  | literal_run : Nat → scan_event
  | placeholder : spec_id → Nat → Nat → scan_event
deriving DecidableEq

/-- The checkpoints at which the scan context is observed: construction, a
literal-run hook call, a recognized placeholder (both ctx pointers updated
by parse_member), and the cursor advance one past the closing bracket. -/
inductive ckpt : Type
  | init | literal | placeholder | advance
deriving DecidableEq

/-- One full scan's observable behaviour: the error thrown (if any), the hook
invocations that happened before it, snapshots (checkpoint, begin, subend) of
the scan context, and the positions dereferenced by the bracket finder and
the scan loop itself. -/
structure scan_out where
  error : Option scan_error
  events : List scan_event
  trace : List (ckpt × Nat × Nat)
  reads : List Nat

/-- hyx::basic_scanner::scan — the while loop, with begin b and subend se.
Each iteration: find the next valid bracket from b (none left: fire the
literal-run hook at the end position and stop); a ']' is an unmatched-right
error; otherwise step one past the '[' and search for the closer — the C++
evaluates *rb before the rb == end() test, so rb is recorded as read even
when it is the end position; fire the literal-run hook just before the '[',
parse the placeholder body, then advance begin one past the closing bracket
(= subend).  fuel counts loop iterations; begin grows by at least two per
iteration, so the length + 1 supplied by `scan` never runs out. -/
def scan_loop (s : List Char) : Nat → Nat → Nat → scan_out
  | 0, _, _ => ⟨none, [], [], []⟩
  | fuel + 1, b, se =>
    let n := s.length
    if b = n then ⟨none, [], [], []⟩
    else
      let fb := find_next_valid_bracket s n (n + 1) b
      let lb := fb.1
      if lb = n then ⟨none, [scan_event.literal_run lb], [(ckpt.literal, b, se)], fb.2⟩
      else if deref s lb = ']' then
        ⟨some scan_error.unmatched_right, [], [], fb.2 ++ [lb]⟩
      else
        let lb1 := min (lb + 1) n
        let fb2 := find_next_valid_bracket s n (n + 1) lb1
        let rb := fb2.1
        let reads0 := fb.2 ++ [lb] ++ fb2.2 ++ [rb]
        if deref s rb = '[' ∨ rb = n then
          ⟨some scan_error.unmatched_left, [], [], reads0⟩
        else
          let ev1 := scan_event.literal_run (lb1 - 1)
          match parse_namespace s rb lb1 availableSpecs with
          | Except.error err =>
            ⟨some err, [ev1], [(ckpt.literal, b, se)], reads0⟩
          | Except.ok (id, b', se') =>
            let b2 := min (se' + 1) n
            let rest := scan_loop s fuel b2 se'
            ⟨rest.error,
             ev1 :: scan_event.placeholder id b' se' :: rest.events,
             (ckpt.literal, b, se) :: (ckpt.placeholder, b', se') :: (ckpt.advance, b2, se') :: rest.trace,
             reads0 ++ rest.reads⟩

/-- A full scan of a template: the scan_context starts at (begin, subend, end)
= (0, length, length); the initial snapshot is the constructed context. -/
def scan (s : List Char) : scan_out :=
  let r := scan_loop s (s.length + 1) 0 s.length
  { r with trace := (ckpt.init, 0, s.length) :: r.trace }

-- ********************************************************************
-- Theorems
-- ********************************************************************

/-- Claim C1: the claim says enable() clears the failure flag set by
disable() so that subsequent logging produces output again.  The code calls
setstate(goodbit), and setstate ORs its argument into the state; goodbit is
zero, so the failbit set by disable() is never cleared: after
disable(); enable(); a logging call still produces no output, while logging
with the never-disabled sink does write. -/
theorem C1_enable_does_not_clear_failbit :
    (run_ops init_stream [log_op.disable, log_op.enable, log_op.log "m"]).written = [] ∧
    (run_ops init_stream [log_op.log "m"]).written = ["m"] :=
  ⟨rfl, rfl⟩

/-- Claim C2: the claim says unique preserves first-seen order, and in
particular maps [int, int, bool, int] to [int, bool].  Coding int as 0 and
bool as 1: _unique_impl prepends kept elements to its accumulator but
appends the final one, so the code yields [bool, int] — the first-occurrence
set, in the wrong order. -/
theorem C2_unique_order_bug :
    unique [0, 0, 1, 0] = [1, 0] ∧ unique [0, 0, 1, 0] ≠ [0, 1] := by
  constructor <;> decide

/-- Splitting with any accumulator and concatenating returns the accumulator
followed by the remaining input. -/
theorem _split_impl_cat {α : Type} :
    ∀ (pos : Nat) (acc rest : List α),
      cat (_split_impl pos acc rest).1 (_split_impl pos acc rest).2 = acc ++ rest
  | 0, _, _ => rfl
  | pos + 1, acc, u :: us => by
    have ih := _split_impl_cat pos (acc ++ [u]) us
    simpa [_split_impl, cat] using ih
  | _ + 1, acc, [] => by simp [_split_impl, cat]

/-- Claim C9: for every type sequence and every position k in [0, length],
splitting at k into prefix and suffix and concatenating the halves left to
right reproduces the original sequence. -/
theorem C9_split_cat {α : Type} (l : List α) (k : Nat) (h : k ≤ l.length) :
    cat (split k l).1 (split k l).2 = l := by
  simpa [split] using _split_impl_cat k ([] : List α) l

/-- Witness for C9 at l = [1, 2, 3], k = 2. -/
theorem C9_witness :
    cat (split 2 [1, 2, 3]).1 (split 2 [1, 2, 3]).2 = [1, 2, 3] :=
  C9_split_cat [1, 2, 3] 2 (by decide)

/-- Dropping the last element twice removes a two-element suffix. -/
theorem dropLast_two_append {α : Type} (xs : List α) (a b : α) :
    ((xs ++ [a, b]).dropLast).dropLast = xs := by
  have h : xs ++ [a, b] = (xs ++ [a]) ++ [b] := by simp
  rw [h, List.dropLast_concat, List.dropLast_concat]

/-- find_last_of misses exactly when the character is absent. -/
theorem find_last_of_eq_none {s : List Char} {c : Char} (h : c ∉ s) :
    find_last_of s c = none := by
  induction s with
  | nil => rfl
  | cons a as ih =>
    have h1 : c ∉ as := fun hm => h (List.mem_cons_of_mem a hm)
    have h2 : ¬(a = c) := fun he => h (he ▸ List.mem_cons_self a as)
    rw [find_last_of, ih h1]
    simp [h2]

/-- When no colon occurs after the separator of the previous segment, the
last colon of the whole prefix string is the separator's colon. -/
theorem find_last_of_append_sep (r l : List Char) (h : ':' ∉ l) :
    find_last_of (r ++ ':' :: ' ' :: l) ':' = some r.length := by
  induction r with
  | nil =>
    have hsp : ':' ∉ ' ' :: l := by
      intro hm
      rcases List.mem_cons.mp hm with h1 | h1
      · exact absurd h1 (by decide)
      · exact h h1
    rw [List.nil_append, find_last_of, find_last_of_eq_none hsp]
    simp
  | cons a r' ih =>
    rw [List.cons_append, find_last_of, ih]
    rfl

/-- Truncating just after the separator colon recovers the prefix string up
to and including that separator. -/
theorem take_append_sep (r l : List Char) :
    (r ++ ':' :: ' ' :: l).take (r.length + 2) = r ++ [':', ' '] := by
  rw [List.take_append_eq_append_take]
  simp [List.take_of_length_le]

/-- Any nonempty sequence of pushes leaves a prefix string ending in ": ". -/
theorem foldl_push_ends :
    ∀ (ls : List (List Char)) (acc l : List Char),
      ∃ r, List.foldl push_prefix acc (l :: ls) = r ++ [':', ' ']
  | [], acc, l => ⟨acc ++ l, by simp [ push_prefix]⟩
  | m :: ms, acc, l => by
    rw [List.foldl_cons]
    exact foldl_push_ends ms ( push_prefix acc l) m

/-- Counterexample to claim C3: the claim allows arbitrary label strings, but
pushing the label "a:b" onto the empty prefix and popping leaves "a:b", not
the empty pre-push prefix — pop_prefix trims at the last colon, which here
lies inside the label. -/
theorem C3_counterexample :
    pop_prefix ( push_prefix [] "a:b".data) = "a:b".data ∧
    "a:b".data ≠ ([] : List Char) := by
  constructor <;> decide

/-- Claim C3 (amended: the popped label contains no colon): for every
sequence of pushed labels, popping right after pushing a colon-free label
restores the prefix to its value before that push — clearing it entirely
when no earlier segment remains, and otherwise trimming back to the previous
segment's trailing ": ". -/
theorem C3_pop_prefix_amended (ls : List (List Char)) (l : List Char) (h : ':' ∉ l) :
    pop_prefix ( push_prefix (foldPushes ls) l) = foldPushes ls := by
  cases ls with
  | nil =>
    have harg : push_prefix (foldPushes []) l = l ++ [':', ' '] := by
      simp [ push_prefix, foldPushes]
    have hne : l ++ [':', ' '] ≠ [] := by simp
    have hq : ((l ++ [':', ' ']).dropLast).dropLast = l := dropLast_two_append l ':' ' '
    have hfind : find_last_of l ':' = none := find_last_of_eq_none h
    rw [harg]
    show pop_prefix (l ++ [':', ' ']) = foldPushes []
    calc pop_prefix (l ++ [':', ' '])
        = match find_last_of (((l ++ [':', ' ']).dropLast).dropLast) ':' with
          | some i => (((l ++ [':', ' ']).dropLast).dropLast).take (i + 2)
          | none => [] := by
          simp only [ pop_prefix, if_neg hne]
      _ = ([] : List Char) := by rw [hq, hfind]
      _ = foldPushes [] := rfl
  | cons l0 ls' =>
    obtain ⟨r, hr⟩ := foldl_push_ends ls' [] l0
    have hfold : foldPushes (l0 :: ls') = r ++ [':', ' '] := hr
    have harg : push_prefix (foldPushes (l0 :: ls')) l = (r ++ ':' :: ' ' :: l) ++ [':', ' '] := by
      rw [hfold]
      simp [ push_prefix]
    have hne : (r ++ ':' :: ' ' :: l) ++ [':', ' '] ≠ [] := by simp
    have hq : (((r ++ ':' :: ' ' :: l) ++ [':', ' ']).dropLast).dropLast = r ++ ':' :: ' ' :: l :=
      dropLast_two_append (r ++ ':' :: ' ' :: l) ':' ' '
    rw [harg]
    calc pop_prefix ((r ++ ':' :: ' ' :: l) ++ [':', ' '])
        = match find_last_of ((((r ++ ':' :: ' ' :: l) ++ [':', ' ']).dropLast).dropLast) ':' with
          | some i => ((((r ++ ':' :: ' ' :: l) ++ [':', ' ']).dropLast).dropLast).take (i + 2)
          | none => [] := by
          simp only [ pop_prefix, if_neg hne]
      _ = (r ++ ':' :: ' ' :: l).take (r.length + 2) := by
          rw [hq, find_last_of_append_sep r l h]
      _ = r ++ [':', ' '] := take_append_sep r l
      _ = foldPushes (l0 :: ls') := hfold.symm

/-- Witness for the amended C3: push "a" then "b", pop restores "a: ". -/
theorem C3_witness :
    pop_prefix ( push_prefix (foldPushes ["a".data]) "b".data) = foldPushes ["a".data] :=
  C3_pop_prefix_amended ["a".data] "b".data (by decide)

/-- Two prefixes of the same list are comparable. -/
theorem prefix_comparable {α : Type} (t l1 l2 : List α) (h1 : l1 <+: t) (h2 : l2 <+: t) :
    l1 <+: l2 ∨ l2 <+: l1 := by
  rcases Nat.le_total l1.length l2.length with hle | hle
  · left
    rw [List.prefix_iff_eq_take]
    calc l1 = t.take l1.length := List.prefix_iff_eq_take.mp h1
      _ = t.take (min l1.length l2.length) := by rw [Nat.min_eq_left hle]
      _ = (t.take l2.length).take l1.length := by rw [List.take_take]
      _ = l2.take l1.length := by rw [← List.prefix_iff_eq_take.mp h2]
  · right
    rw [List.prefix_iff_eq_take]
    calc l2 = t.take l2.length := List.prefix_iff_eq_take.mp h2
      _ = t.take (min l2.length l1.length) := by rw [Nat.min_eq_left hle]
      _ = (t.take l1.length).take l2.length := by rw [List.take_take]
      _ = l1.take l2.length := by rw [← List.prefix_iff_eq_take.mp h1]

/-- No namespace label of the grammar table is a prefix of another (their
first characters already differ), so at most one namespace can match any
placeholder body. -/
theorem availableSpecs_ns_pairwise :
    List.Pairwise (fun a b => ¬(a.1 <+: b.1) ∧ ¬(b.1 <+: a.1)) availableSpecs := by
  decide

/-- Within each namespace of the grammar table, no member label is a prefix
of another, so at most one member can match the remainder of a body. -/
theorem availableSpecs_members_pairwise :
    ∀ p ∈ availableSpecs,
      List.Pairwise (fun a b => ¬(a.1 <+: b.1) ∧ ¬(b.1 <+: a.1)) p.2 := by
  decide

/-- If some member of a pairwise-prefix-free member list matches the view
and its label is not followed by a semicolon, parse_member reports the
missing-semicolon error: earlier members cannot match (two prefixes of the
same view are comparable, contradicting prefix-freedom), so the search
reaches exactly the matching member and its front() check fails. -/
theorem parse_member_hits (s : List Char) (hi : Nat) :
    ∀ (mems : List (List Char × spec_id)),
      List.Pairwise (fun a b => ¬(a.1 <+: b.1) ∧ ¬(b.1 <+: a.1)) mems →
      ∀ (lo : Nat) (lbl : List Char) (id : spec_id), (lbl, id) ∈ mems →
        lbl.isPrefixOf (subview s lo hi) →
        ¬(deref s (lo + lbl.length) = ';') →
        parse_member s hi lo mems = Except.error scan_error.missing_semicolon := by
  intro mems
  induction mems with
  | nil =>
    intro _ lo lbl id hmem
    exact absurd hmem (List.not_mem_nil (lbl, id))
  | cons m0 rest ih =>
    intro hpw lo lbl id hmem hpre hsemi
    rw [List.pairwise_cons] at hpw
    obtain ⟨hhead, htail⟩ := hpw
    obtain ⟨lbl0, id0⟩ := m0
    rw [parse_member]
    rcases List.mem_cons.mp hmem with heq | hmem'
    · injection heq with ha hb
      subst ha
      rw [if_pos hpre, if_neg hsemi]
    · have hnot : ¬(lbl0.isPrefixOf (subview s lo hi)) := by
        intro hp0
        have h1 : lbl0 <+: subview s lo hi := List.isPrefixOf_iff_prefix.mp hp0
        have h2 : lbl <+: subview s lo hi := List.isPrefixOf_iff_prefix.mp hpre
        obtain ⟨hna, hnb⟩ := hhead (lbl, id) hmem'
        rcases prefix_comparable (subview s lo hi) lbl0 lbl h1 h2 with hc | hc
        · exact hna hc
        · exact hnb hc
      rw [if_neg hnot]
      exact ih htail lo lbl id hmem' hpre hsemi

/-- If some namespace of a pairwise-prefix-free table matches the view,
parse_namespace delegates to exactly that namespace's members: earlier
namespaces cannot match, again by prefix-freedom. -/
theorem parse_namespace_hits (s : List Char) (hi : Nat) :
    ∀ (table : List (List Char × List (List Char × spec_id))),
      List.Pairwise (fun a b => ¬(a.1 <+: b.1) ∧ ¬(b.1 <+: a.1)) table →
      ∀ (lo : Nat) (ns : List Char) (mems : List (List Char × spec_id)), (ns, mems) ∈ table →
        ns.isPrefixOf (subview s lo hi) →
        parse_namespace s hi lo table = parse_member s hi (lo + ns.length) mems := by
  intro table
  induction table with
  | nil =>
    intro _ lo ns mems hmem
    exact absurd hmem (List.not_mem_nil (ns, mems))
  | cons n0 rest ih =>
    intro hpw lo ns mems hmem hpre
    rw [List.pairwise_cons] at hpw
    obtain ⟨hhead, htail⟩ := hpw
    obtain ⟨ns0, mems0⟩ := n0
    rw [parse_namespace]
    rcases List.mem_cons.mp hmem with heq | hmem'
    · injection heq with ha hb
      subst ha
      subst hb
      rw [if_pos hpre]
    · have hnot : ¬(ns0.isPrefixOf (subview s lo hi)) := by
        intro hp0
        have h1 : ns0 <+: subview s lo hi := List.isPrefixOf_iff_prefix.mp hp0
        have h2 : ns <+: subview s lo hi := List.isPrefixOf_iff_prefix.mp hpre
        obtain ⟨hna, hnb⟩ := hhead (ns, mems) hmem'
        rcases prefix_comparable (subview s lo hi) ns0 ns h1 h2 with hc | hc
        · exact hna hc
        · exact hnb hc
      rw [if_neg hnot]
      exact ih htail lo ns mems hmem' hpre

/-- Counterexample to claim C5: the template "a][cl::utc]" contains the
bracketed placeholder "[cl::utc]", whose body is the known namespace "cl::"
followed by the known member "utc" with nothing (no ';') after it, yet the
scan fails with the unmatched-']' error — the stray ']' at position 1 is hit
first — not with the missing-semicolon error the claim requires for every
template containing such a placeholder. -/
theorem C5_counterexample :
    (scan "a][cl::utc]".data).error = some scan_error.unmatched_right ∧
    ¬((scan "a][cl::utc]".data).error = some scan_error.missing_semicolon) := by
  constructor <;> decide

/-- Claim C5 (amended: the placeholder must be the one the scan is
processing): whenever an iteration of the scan loop finds a meaningful
opening '[' with a matching meaningful ']', and the body between them begins
with a known namespace label followed by a known member label whose label is
not immediately followed by ';' (whatever follows instead — the closing
bracket itself when nothing follows, as in "[cl::utc]", or any other
character), the scan fails with the missing-semicolon format error and no
other outcome. -/
theorem C5_missing_semicolon_amended (s : List Char) (b se fuel : Nat)
    (hb : ¬(b = s.length))
    (hlb : ¬((find_next_valid_bracket s s.length (s.length + 1) b).1 = s.length))
    (hnr : ¬(deref s (find_next_valid_bracket s s.length (s.length + 1) b).1 = ']'))
    (hok : ¬(deref s (find_next_valid_bracket s s.length (s.length + 1)
          (min ((find_next_valid_bracket s s.length (s.length + 1) b).1 + 1) s.length)).1 = '[' ∨
        (find_next_valid_bracket s s.length (s.length + 1)
          (min ((find_next_valid_bracket s s.length (s.length + 1) b).1 + 1) s.length)).1 = s.length))
    (ns : List Char) (mems : List (List Char × spec_id)) (hns : (ns, mems) ∈ availableSpecs)
    (lbl : List Char) (id : spec_id) (hmem : (lbl, id) ∈ mems)
    (hpre1 : ns.isPrefixOf (subview s
        (min ((find_next_valid_bracket s s.length (s.length + 1) b).1 + 1) s.length)
        (find_next_valid_bracket s s.length (s.length + 1)
          (min ((find_next_valid_bracket s s.length (s.length + 1) b).1 + 1) s.length)).1))
    (hpre2 : lbl.isPrefixOf (subview s
        (min ((find_next_valid_bracket s s.length (s.length + 1) b).1 + 1) s.length + ns.length)
        (find_next_valid_bracket s s.length (s.length + 1)
          (min ((find_next_valid_bracket s s.length (s.length + 1) b).1 + 1) s.length)).1))
    (hsemi : ¬(deref s (min ((find_next_valid_bracket s s.length (s.length + 1) b).1 + 1) s.length +
        ns.length + lbl.length) = ';')) :
    (scan_loop s (fuel + 1) b se).error = some scan_error.missing_semicolon := by
  have hparse : parse_namespace s
      (find_next_valid_bracket s s.length (s.length + 1)
        (min ((find_next_valid_bracket s s.length (s.length + 1) b).1 + 1) s.length)).1
      (min ((find_next_valid_bracket s s.length (s.length + 1) b).1 + 1) s.length)
      availableSpecs = Except.error scan_error.missing_semicolon := by
    rw [parse_namespace_hits s _ availableSpecs availableSpecs_ns_pairwise _ ns mems hns hpre1]
    exact parse_member_hits s _ mems (availableSpecs_members_pairwise (ns, mems) hns) _ lbl id
      hmem hpre2 hsemi
  simp only [scan_loop, if_neg hb, if_neg hlb, if_neg hnr, if_neg hok, hparse]

/-- Witness for the amended C5 at the spec's example "[cl::utc]": the body
"cl::utc" matches namespace "cl::" and member "utc", and the character after
the member label is the closing ']', not ';'. -/
theorem C5_witness :
    (scan "[cl::utc]".data).error = some scan_error.missing_semicolon :=
  C5_missing_semicolon_amended "[cl::utc]".data 0 9 8 (by decide) (by decide) (by decide)
    (by decide) "cl::".data
    [("sys".data, spec_id.sys), ("utc".data, spec_id.utc), ("tai".data, spec_id.tai),
     ("gps".data, spec_id.gps), ("file".data, spec_id.file)]
    (by decide) "utc".data spec_id.utc (by decide) (by decide) (by decide) (by decide)

/-- On a span containing no bracket characters the bracket finder always
reaches the end bound. -/
theorem find_no_bracket (s : List Char) (h : ∀ c ∈ s, c ≠ '[' ∧ c ≠ ']') :
    ∀ (fuel start : Nat), (find_next_valid_bracket s s.length fuel start).1 = s.length := by
  intro fuel
  induction fuel with
  | zero => intro start; rfl
  | succ n ih =>
    intro start
    by_cases hs : start < s.length
    · have hmem : deref s start ∈ s := by
        rw [deref, List.getD_eq_getElem s nulChar hs]
        exact List.getElem_mem hs
      obtain ⟨h1, h2⟩ := h _ hmem
      simp only [find_next_valid_bracket, if_pos hs, if_neg h1, if_neg h2]
      exact ih _
    · simp only [find_next_valid_bracket, if_neg hs]

/-- The bracket finder never returns a position beyond the end bound. -/
theorem find_le (s : List Char) (e : Nat) :
    ∀ (fuel start : Nat), (find_next_valid_bracket s e fuel start).1 ≤ e := by
  intro fuel
  induction fuel with
  | zero => intro start; exact Nat.le_refl e
  | succ n ih =>
    intro start
    by_cases hs : start < e
    · simp only [find_next_valid_bracket, if_pos hs]
      split_ifs <;> first | exact Nat.le_of_lt hs | exact ih _
    · simp only [find_next_valid_bracket, if_neg hs]
      exact Nat.le_refl e

/-- The bracket finder never returns a position before its starting one. -/
theorem find_ge (s : List Char) (e : Nat) :
    ∀ (fuel start : Nat), start ≤ e → start ≤ (find_next_valid_bracket s e fuel start).1 := by
  intro fuel
  induction fuel with
  | zero => intro start hse; exact hse
  | succ n ih =>
    intro start hse
    by_cases hs : start < e
    · simp only [find_next_valid_bracket, if_pos hs]
      have hstep : ∀ k : Nat, start ≤ min (start + k + 1) e →
          start ≤ (find_next_valid_bracket s e n (min (start + k + 1) e)).1 := by
        intro k hk
        exact le_trans hk (ih _ (Nat.min_le_right _ _))
      split_ifs <;>
        first
          | exact Nat.le_refl start
          | exact hstep 0 (le_trans (Nat.le_of_lt hs) (Nat.le_min.mpr
              ⟨Nat.le_add_right_of_le (Nat.le_succ start), Nat.le_refl e⟩))
          | skip
      all_goals
        refine le_trans ?_ (ih _ (Nat.min_le_right _ _))
        refine Nat.le_min.mpr ⟨?_, hse⟩
        omega
    · simp only [find_next_valid_bracket, if_neg hs]
      exact hse

/-- When the bracket finder stops strictly before the end bound, the
character at the returned position is a bracket. -/
theorem find_char (s : List Char) (e : Nat) :
    ∀ (fuel start : Nat), (find_next_valid_bracket s e fuel start).1 < e →
      deref s (find_next_valid_bracket s e fuel start).1 = '[' ∨
      deref s (find_next_valid_bracket s e fuel start).1 = ']' := by
  intro fuel
  induction fuel with
  | zero => intro start hlt; exact absurd hlt (lt_irrefl e)
  | succ n ih =>
    intro start
    by_cases hs : start < e
    · simp only [find_next_valid_bracket, if_pos hs]
      split_ifs with h1 h2 h3 h4 h5 <;> intro hlt
      · exact Or.inl h1
      · exact ih _ hlt
      · exact Or.inr h3
      · exact Or.inr h3
      · exact ih _ hlt
      · exact ih _ hlt
    · simp only [find_next_valid_bracket, if_neg hs]
      intro hlt
      exact absurd hlt (lt_irrefl e)

/-- Counterexample to claim C7: the empty template contains no bracket
characters, yet its scan loop never runs, so the literal-run hook fires zero
times, not the claimed exactly once with the end-of-input position. -/
theorem C7_counterexample :
    (scan ([] : List Char)).events = [] ∧
    (scan ([] : List Char)).events ≠ [scan_event.literal_run 0] := by
  constructor <;> decide

/-- Claim C7 (amended: nonempty templates): a full scan of a nonempty
template containing no '[' and no ']' invokes the literal-run hook exactly
once, with the end-of-input position, and raises no error — in particular
the placeholder hook is never invoked. -/
theorem C7_literal_run_amended (s : List Char) (hne : s ≠ [])
    (h : ∀ c ∈ s, c ≠ '[' ∧ c ≠ ']') :
    (scan s).events = [scan_event.literal_run s.length] ∧ (scan s).error = none := by
  have hb : ¬((0 : Nat) = s.length) := by
    intro h0
    exact hne (List.eq_nil_of_length_eq_zero h0.symm)
  have hfind := find_no_bracket s h (s.length + 1) 0
  constructor <;>
    simp [scan, scan_loop, hb, hfind]

/-- Witness for the amended C7 at the bracket-free template "ab". -/
theorem C7_witness :
    (scan "ab".data).events = [scan_event.literal_run ("ab".data).length] ∧
    (scan "ab".data).error = none :=
  C7_literal_run_amended "ab".data (by decide) (by decide)

/-- Claim C6: whenever an iteration of the scan loop finds a meaningful
opening '[' (the next valid bracket exists and is not ']') and the search
for its closer yields another '[' or reaches the end of input, the scan
fails with the unmatched-'[' format error. -/
theorem C6_unmatched_left (s : List Char) (b se fuel : Nat)
    (hb : ¬(b = s.length))
    (hlb : ¬((find_next_valid_bracket s s.length (s.length + 1) b).1 = s.length))
    (hnr : ¬(deref s (find_next_valid_bracket s s.length (s.length + 1) b).1 = ']'))
    (hrb : deref s (find_next_valid_bracket s s.length (s.length + 1)
          (min ((find_next_valid_bracket s s.length (s.length + 1) b).1 + 1) s.length)).1 = '[' ∨
        (find_next_valid_bracket s s.length (s.length + 1)
          (min ((find_next_valid_bracket s s.length (s.length + 1) b).1 + 1) s.length)).1 = s.length) :
    (scan_loop s (fuel + 1) b se).error = some scan_error.unmatched_left := by
  simp only [scan_loop, if_neg hb, if_neg hlb, if_neg hnr, if_pos hrb]

/-- Witness for C6 at the spec's example "[a": the opening bracket at
position 0 is meaningful and the closer search reaches end of input. -/
theorem C6_witness :
    (scan "[a".data).error = some scan_error.unmatched_left :=
  C6_unmatched_left "[a".data 0 2 1 (by decide) (by decide) (by decide) (by decide)

/-- Claim C8: the bracket finder honors the doubling-as-escape rules position
by position: a ']' followed by exactly one more ']' is skipped as an escaped
literal (the search continues two positions further); a ']' followed by two
more ']' returns the first of the three as the meaningful closer; an '['
immediately followed by '[' is skipped; and when the bound is reached with
nothing meaningful found, the bound itself is returned. -/
theorem C8_bracket_rules (s : List Char) (e start fuel : Nat) :
    (start + 1 < e → deref s start = ']' → deref s (start + 1) = ']' →
      ¬(deref s (start + 2) = ']') →
      (find_next_valid_bracket s e (fuel + 1) start).1 =
        (find_next_valid_bracket s e fuel (start + 2)).1) ∧
    (start + 1 < e → deref s start = ']' → deref s (start + 1) = ']' →
      deref s (start + 2) = ']' →
      (find_next_valid_bracket s e (fuel + 1) start).1 = start) ∧
    (start + 1 < e → deref s start = '[' → deref s (start + 1) = '[' →
      (find_next_valid_bracket s e (fuel + 1) start).1 =
        (find_next_valid_bracket s e fuel (start + 2)).1) ∧
    (e ≤ start → (find_next_valid_bracket s e fuel start).1 = e) := by
  refine ⟨?_, ?_, ?_, ?_⟩
  · intro h1 hc0 hc1 hc2
    have hs : start < e := Nat.lt_of_succ_lt h1
    have hm1 : min (start + 1) e = start + 1 := Nat.min_eq_left (Nat.le_of_lt h1)
    have hm2 : min (start + 1 + 1) e = start + 2 := Nat.min_eq_left h1
    have hnl : ¬(deref s start = '[') := by rw [hc0]; decide
    simp only [find_next_valid_bracket, if_pos hs, if_neg hnl, if_pos hc0, hm1, hm2,
      hc1, hc2, if_neg hc2]
    simp [hc1]
  · intro h1 hc0 hc1 hc2
    have hs : start < e := Nat.lt_of_succ_lt h1
    have hm1 : min (start + 1) e = start + 1 := Nat.min_eq_left (Nat.le_of_lt h1)
    have hm2 : min (start + 1 + 1) e = start + 2 := Nat.min_eq_left h1
    have hnl : ¬(deref s start = '[') := by rw [hc0]; decide
    simp only [find_next_valid_bracket, if_pos hs, if_neg hnl, if_pos hc0, hm1, hm2,
      hc1, hc2]
    simp [hc1, hc2]
  · intro h1 hc0 hc1
    have hs : start < e := Nat.lt_of_succ_lt h1
    have hm1 : min (start + 1) e = start + 1 := Nat.min_eq_left (Nat.le_of_lt h1)
    have hm2 : min (start + 1 + 1) e = start + 2 := Nat.min_eq_left h1
    simp only [find_next_valid_bracket, if_pos hs, if_pos hc0, hm1, hm2, hc1]
    simp [hc1]
  · intro hge
    cases fuel with
    | zero => rfl
    | succ n =>
      simp only [find_next_valid_bracket, if_neg (Nat.not_lt.mpr hge)]

/-- Witness for C8: the escaped pair in "]]a" skips two, the triple in "]]]"
returns position 0, the escaped pair in "[[a" skips two, and a search
starting at the bound of "ab" returns the bound. -/
theorem C8_witness :
    (find_next_valid_bracket "]]a".data 3 4 0).1 = (find_next_valid_bracket "]]a".data 3 3 2).1 ∧
    (find_next_valid_bracket "]]]".data 3 4 0).1 = 0 ∧
    (find_next_valid_bracket "[[a".data 3 4 0).1 = (find_next_valid_bracket "[[a".data 3 3 2).1 ∧
    (find_next_valid_bracket "ab".data 2 5 2).1 = 2 := by
  refine ⟨?_, ?_, ?_, ?_⟩
  · exact (C8_bracket_rules "]]a".data 3 0 3).1 (by decide) (by decide) (by decide) (by decide)
  · exact (C8_bracket_rules "]]]".data 3 0 3).2.1 (by decide) (by decide) (by decide) (by decide)
  · exact (C8_bracket_rules "[[a".data 3 0 3).2.2.1 (by decide) (by decide) (by decide)
  · exact (C8_bracket_rules "ab".data 2 2 5).2.2.2 (by decide)

/-- A successful parse_member leaves subend at the view's end, begin at most
one past it, and a semicolon just before begin. -/
theorem parse_member_ok (s : List Char) (hi : Nat) :
    ∀ (mems : List (List Char × spec_id)) (lo : Nat), lo ≤ hi →
      ∀ (id : spec_id) (b' se' : Nat),
        parse_member s hi lo mems = Except.ok (id, b', se') →
        se' = hi ∧ b' ≤ hi + 1 ∧ deref s (b' - 1) = ';' := by
  intro mems
  induction mems with
  | nil =>
    intro lo hlo id b' se' hok
    exact absurd hok (by simp [parse_member])
  | cons m rest ih =>
    intro lo hlo id b' se' hok
    obtain ⟨lbl, mid⟩ := m
    rw [parse_member] at hok
    by_cases hpre : lbl.isPrefixOf (subview s lo hi)
    · rw [if_pos hpre] at hok
      have hlen : lo + lbl.length ≤ hi := by
        have h1 : lbl.length ≤ (subview s lo hi).length :=
          (List.isPrefixOf_iff_prefix.mp hpre).length_le
        have h2 : (subview s lo hi).length ≤ hi - lo := by
          simp only [subview, List.length_take]
          exact Nat.min_le_left _ _
        omega
      by_cases hsemi : deref s (lo + lbl.length) = ';'
      · rw [if_pos hsemi] at hok
        simp only [Except.ok.injEq, Prod.mk.injEq] at hok
        obtain ⟨hid, hb', hse'⟩ := hok
        refine ⟨hse'.symm, ?_, ?_⟩
        · omega
        · have hb1 : b' - 1 = lo + lbl.length := by omega
          rw [hb1]
          exact hsemi
      · rw [if_neg hsemi] at hok
        exact absurd hok (by simp)
    · rw [if_neg hpre] at hok
      exact ih lo hlo id b' se' hok

/-- A successful parse_namespace has the same postcondition as a successful
parse_member. -/
theorem parse_namespace_ok (s : List Char) (hi : Nat) :
    ∀ (table : List (List Char × List (List Char × spec_id))) (lo : Nat), lo ≤ hi →
      ∀ (id : spec_id) (b' se' : Nat),
        parse_namespace s hi lo table = Except.ok (id, b', se') →
        se' = hi ∧ b' ≤ hi + 1 ∧ deref s (b' - 1) = ';' := by
  intro table
  induction table with
  | nil =>
    intro lo hlo id b' se' hok
    exact absurd hok (by simp [parse_namespace])
  | cons nsp rest ih =>
    intro lo hlo id b' se' hok
    obtain ⟨ns, members⟩ := nsp
    rw [parse_namespace] at hok
    by_cases hpre : ns.isPrefixOf (subview s lo hi)
    · rw [if_pos hpre] at hok
      have hlen : lo + ns.length ≤ hi := by
        have h1 : ns.length ≤ (subview s lo hi).length :=
          (List.isPrefixOf_iff_prefix.mp hpre).length_le
        have h2 : (subview s lo hi).length ≤ hi - lo := by
          simp only [subview, List.length_take]
          exact Nat.min_le_left _ _
        omega
      exact parse_member_ok s hi members (lo + ns.length) hlen id b' se' hok
    · rw [if_neg hpre] at hok
      exact ih lo hlo id b' se' hok

/-- Every context snapshot the scan loop records keeps both pointers within
the span, with begin at most one past subend; begin exceeds subend only at
non-initial, non-placeholder checkpoints. -/
theorem scan_loop_trace_inv (s : List Char) :
    ∀ (fuel b se : Nat), b ≤ s.length → se ≤ s.length → (b ≤ se ∨ b = se + 1) →
      ∀ t ∈ (scan_loop s fuel b se).trace,
        t.2.1 ≤ s.length ∧ t.2.2 ≤ s.length ∧ (t.2.1 ≤ t.2.2 ∨ t.2.1 = t.2.2 + 1) ∧
        ((t.1 = ckpt.init ∨ t.1 = ckpt.placeholder) → t.2.1 ≤ t.2.2) := by
  intro fuel
  induction fuel with
  | zero =>
    intro b se hb hse hd t ht
    exact absurd ht (by simp [scan_loop])
  | succ n ih =>
    intro b se hb hse hd t ht
    simp only [scan_loop] at ht
    by_cases h0 : b = s.length
    · rw [if_pos h0] at ht
      exact absurd ht (by simp)
    · rw [if_neg h0] at ht
      by_cases hlb : (find_next_valid_bracket s s.length (s.length + 1) b).1 = s.length
      · rw [if_pos hlb] at ht
        rcases List.mem_singleton.mp ht with rfl
        exact ⟨hb, hse, hd, by simp⟩
      · rw [if_neg hlb] at ht
        by_cases hr : deref s (find_next_valid_bracket s s.length (s.length + 1) b).1 = ']'
        · rw [if_pos hr] at ht
          exact absurd ht (by simp)
        · rw [if_neg hr] at ht
          by_cases hbad : deref s (find_next_valid_bracket s s.length (s.length + 1)
                (min ((find_next_valid_bracket s s.length (s.length + 1) b).1 + 1) s.length)).1 = '[' ∨
              (find_next_valid_bracket s s.length (s.length + 1)
                (min ((find_next_valid_bracket s s.length (s.length + 1) b).1 + 1) s.length)).1 = s.length
          · rw [if_pos hbad] at ht
            exact absurd ht (by simp)
          · rw [if_neg hbad] at ht
            push_neg at hbad
            obtain ⟨hnotlb, hrbne⟩ := hbad
            set lb1 := min ((find_next_valid_bracket s s.length (s.length + 1) b).1 + 1) s.length with hlb1_def
            set rb := (find_next_valid_bracket s s.length (s.length + 1) lb1).1 with hrb_def
            have hlb1_le : lb1 ≤ s.length := Nat.min_le_right _ _
            have hrb_le : rb ≤ s.length := find_le s s.length (s.length + 1) lb1
            have hrb_lt : rb < s.length := Nat.lt_of_le_of_ne hrb_le hrbne
            have hrb_char : deref s rb = ']' := by
              rcases find_char s s.length (s.length + 1) lb1 hrb_lt with hc | hc
              · exact absurd hc hnotlb
              · exact hc
            have hlb1_rb : lb1 ≤ rb := find_ge s s.length (s.length + 1) lb1 hlb1_le
            rcases hpn : parse_namespace s rb lb1 availableSpecs with err | ⟨id, b', se'⟩
            · rw [hpn] at ht
              simp only [List.mem_singleton] at ht
              rcases ht with rfl
              exact ⟨hb, hse, hd, by simp⟩
            · rw [hpn] at ht
              obtain ⟨hse'_eq, hb'_le, hsemi⟩ :=
                parse_namespace_ok s rb availableSpecs lb1 hlb1_rb id b' se' hpn
              have hb'_rb : b' ≤ rb := by
                rcases Nat.lt_or_ge b' (rb + 1) with hlt | hge
                · omega
                · have hb'_eq : b' = rb + 1 := by omega
                  have : deref s rb = ';' := by
                    have hb1 : b' - 1 = rb := by omega
                    rw [← hb1]
                    exact hsemi
                  rw [hrb_char] at this
                  exact absurd this (by decide)
              have hse'_le : se' ≤ s.length := by omega
              have hb2_eq : min (se' + 1) s.length = se' + 1 := by
                apply Nat.min_eq_left
                omega
              simp only [List.mem_cons] at ht
              rcases ht with rfl | rfl | rfl | ht'
              · exact ⟨hb, hse, hd, by simp⟩
              · show b' ≤ s.length ∧ se' ≤ s.length ∧ (b' ≤ se' ∨ b' = se' + 1) ∧
                    ((ckpt.placeholder = ckpt.init ∨ ckpt.placeholder = ckpt.placeholder) →
                      b' ≤ se')
                exact ⟨by omega, hse'_le, Or.inl (by omega), fun _ => by omega⟩
              · show min (se' + 1) s.length ≤ s.length ∧ se' ≤ s.length ∧
                    (min (se' + 1) s.length ≤ se' ∨ min (se' + 1) s.length = se' + 1) ∧
                    ((ckpt.advance = ckpt.init ∨ ckpt.advance = ckpt.placeholder) →
                      min (se' + 1) s.length ≤ se')
                refine ⟨Nat.min_le_right _ _, hse'_le, Or.inr hb2_eq, ?_⟩
                intro hcontra
                rcases hcontra with hc | hc <;> exact absurd hc (by decide)
              · exact ih (min (se' + 1) s.length) se' (Nat.min_le_right _ _) hse'_le
                  (Or.inr hb2_eq) t ht'

/-- Counterexample to claim C4: scanning "[::lvl;]", after the cursor moves
one past the closing bracket the context holds begin = 8 and subend = 7, so
start ≤ subend fails at that checkpoint. -/
theorem C4_counterexample :
    ((ckpt.advance, 8, 7) ∈ (scan "[::lvl;]".data).trace) ∧ ¬((8 : Nat) ≤ 7) := by
  constructor <;> decide

/-- Claim C4 (amended): at every checkpoint of every scan — construction,
literal-run events, placeholder recognition, and the advance past a closing
bracket — both pointers stay within the span and begin ≤ subend + 1; the
full invariant begin ≤ subend holds at construction and at placeholder
recognition, but after the advance past a closing bracket begin = subend + 1. -/
theorem C4_invariant_amended (s : List Char) :
    ∀ t ∈ (scan s).trace,
      t.2.1 ≤ s.length ∧ t.2.2 ≤ s.length ∧
      (t.2.1 ≤ t.2.2 ∨ t.2.1 = t.2.2 + 1) ∧
      ((t.1 = ckpt.init ∨ t.1 = ckpt.placeholder) → t.2.1 ≤ t.2.2) := by
  intro t ht
  simp only [scan, List.mem_cons] at ht
  rcases ht with rfl | ht'
  · exact ⟨Nat.zero_le _, Nat.le_refl _, Or.inl (Nat.zero_le _), fun _ => Nat.zero_le _⟩
  · exact scan_loop_trace_inv s (s.length + 1) 0 s.length (Nat.zero_le _) (Nat.le_refl _)
      (Or.inl (Nat.zero_le _)) t ht'

/-- Every position the bracket finder dereferences lies at or before the end
bound (the interior positions strictly before it, the clamped lookahead
positions at most at it). -/
theorem find_reads_le (s : List Char) (e : Nat) :
    ∀ (fuel start : Nat), ∀ p ∈ (find_next_valid_bracket s e fuel start).2, p ≤ e := by
  intro fuel
  induction fuel with
  | zero =>
    intro start p hp
    exact absurd hp (by simp [find_next_valid_bracket])
  | succ n ih =>
    intro start p hp
    by_cases hs : start < e
    · simp only [find_next_valid_bracket, if_pos hs] at hp
      split_ifs at hp with h1 h2 h3 h4 h5 <;>
        simp only [List.mem_cons, List.not_mem_nil, or_false] at hp
      · rcases hp with rfl | rfl
        · exact Nat.le_of_lt hs
        · exact Nat.min_le_right _ _
      · rcases hp with rfl | rfl | hp'
        · exact Nat.le_of_lt hs
        · exact Nat.min_le_right _ _
        · exact ih _ p hp'
      · rcases hp with rfl | rfl
        · exact Nat.le_of_lt hs
        · exact Nat.min_le_right _ _
      · rcases hp with rfl | rfl | rfl
        · exact Nat.le_of_lt hs
        · exact Nat.min_le_right _ _
        · exact Nat.min_le_right _ _
      · rcases hp with rfl | rfl | rfl | hp'
        · exact Nat.le_of_lt hs
        · exact Nat.min_le_right _ _
        · exact Nat.min_le_right _ _
        · exact ih _ p hp'
      · rcases hp with rfl | hp'
        · exact Nat.le_of_lt hs
        · exact ih _ p hp'
    · simp only [find_next_valid_bracket, if_neg hs] at hp
      exact absurd hp (by simp)

/-- Every position the scan loop dereferences — through the bracket finder
or directly — lies at or before the end bound. -/
theorem scan_loop_reads_le (s : List Char) :
    ∀ (fuel b se : Nat), ∀ p ∈ (scan_loop s fuel b se).reads, p ≤ s.length := by
  intro fuel
  induction fuel with
  | zero =>
    intro b se p hp
    exact absurd hp (by simp [scan_loop])
  | succ n ih =>
    intro b se p hp
    simp only [scan_loop] at hp
    by_cases h0 : b = s.length
    · rw [if_pos h0] at hp
      exact absurd hp (by simp)
    · rw [if_neg h0] at hp
      by_cases hlb : (find_next_valid_bracket s s.length (s.length + 1) b).1 = s.length
      · rw [if_pos hlb] at hp
        exact find_reads_le s s.length (s.length + 1) b p hp
      · rw [if_neg hlb] at hp
        by_cases hr : deref s (find_next_valid_bracket s s.length (s.length + 1) b).1 = ']'
        · rw [if_pos hr] at hp
          rcases List.mem_append.mp hp with hp' | hp'
          · exact find_reads_le s s.length (s.length + 1) b p hp'
          · rcases List.mem_singleton.mp hp' with rfl
            exact find_le s s.length (s.length + 1) b
        · rw [if_neg hr] at hp
          have hreads0 : ∀ q ∈ (find_next_valid_bracket s s.length (s.length + 1) b).2 ++
              [(find_next_valid_bracket s s.length (s.length + 1) b).1] ++
              (find_next_valid_bracket s s.length (s.length + 1)
                (min ((find_next_valid_bracket s s.length (s.length + 1) b).1 + 1) s.length)).2 ++
              [(find_next_valid_bracket s s.length (s.length + 1)
                (min ((find_next_valid_bracket s s.length (s.length + 1) b).1 + 1) s.length)).1],
              q ≤ s.length := by
            intro q hq
            rcases List.mem_append.mp hq with hq' | hq'
            · rcases List.mem_append.mp hq' with hq2 | hq2
              · rcases List.mem_append.mp hq2 with hq3 | hq3
                · exact find_reads_le s s.length (s.length + 1) b q hq3
                · rcases List.mem_singleton.mp hq3 with rfl
                  exact find_le s s.length (s.length + 1) b
              · exact find_reads_le s s.length (s.length + 1) _ q hq2
            · rcases List.mem_singleton.mp hq' with rfl
              exact find_le s s.length (s.length + 1) _
          by_cases hbad : deref s (find_next_valid_bracket s s.length (s.length + 1)
                (min ((find_next_valid_bracket s s.length (s.length + 1) b).1 + 1) s.length)).1 = '[' ∨
              (find_next_valid_bracket s s.length (s.length + 1)
                (min ((find_next_valid_bracket s s.length (s.length + 1) b).1 + 1) s.length)).1 = s.length
          · rw [if_pos hbad] at hp
            exact hreads0 p hp
          · rw [if_neg hbad] at hp
            rcases hpn : parse_namespace s
                (find_next_valid_bracket s s.length (s.length + 1)
                  (min ((find_next_valid_bracket s s.length (s.length + 1) b).1 + 1) s.length)).1
                (min ((find_next_valid_bracket s s.length (s.length + 1) b).1 + 1) s.length)
                availableSpecs with err | ⟨id, b', se'⟩
            · rw [hpn] at hp
              exact hreads0 p hp
            · rw [hpn] at hp
              rcases List.mem_append.mp hp with hp' | hp'
              · exact hreads0 p hp'
              · exact ih _ se' p hp'

/-- Counterexample to claim C10: scanning the template "[" dereferences
position 1, the end-of-input position itself — the clamped lookahead past
the opening bracket and the read of *rb before the rb == end() test both
land on the end bound, not strictly before it. -/
theorem C10_counterexample :
    ("[".data).length ∈ (scan "[".data).reads ∧
    ¬(("[".data).length < ("[".data).length) := by
  constructor <;> decide

/-- Claim C10 (amended): during a scan of any template, every character
inspection performed by the bracket finder and the scan loop occurs at a
position at most the end bound — never strictly beyond it, though the end
position itself can be read. -/
theorem C10_reads_amended (s : List Char) :
    ∀ p ∈ (scan s).reads, p ≤ s.length := by
  intro p hp
  simp only [scan] at hp
  exact scan_loop_reads_le s (s.length + 1) 0 s.length p hp

/-- Witness for the amended C10: position 1 is read while scanning "[" and
is within the bound. -/
theorem C10_witness : (1 : Nat) ≤ ("[".data).length :=
  C10_reads_amended "[".data 1 (by decide)

/-- Witness for the amended C4 at the template "ab" and its construction
checkpoint (init, 0, 2). -/
theorem C4_witness :
    ((ckpt.init, 0, 2) : ckpt × Nat × Nat).2.1 ≤ ("ab".data).length ∧
    ((ckpt.init, 0, 2) : ckpt × Nat × Nat).2.2 ≤ ("ab".data).length ∧
    (((ckpt.init, 0, 2) : ckpt × Nat × Nat).2.1 ≤ ((ckpt.init, 0, 2) : ckpt × Nat × Nat).2.2 ∨
      ((ckpt.init, 0, 2) : ckpt × Nat × Nat).2.1 = ((ckpt.init, 0, 2) : ckpt × Nat × Nat).2.2 + 1) ∧
    ((((ckpt.init, 0, 2) : ckpt × Nat × Nat).1 = ckpt.init ∨
        ((ckpt.init, 0, 2) : ckpt × Nat × Nat).1 = ckpt.placeholder) →
      ((ckpt.init, 0, 2) : ckpt × Nat × Nat).2.1 ≤ ((ckpt.init, 0, 2) : ckpt × Nat × Nat).2.2) :=
  C4_invariant_amended "ab".data (ckpt.init, 0, 2) (by decide)

end hyx

